import Mathlib

/-!
Verification of the resilient fetch / cache / normalizer core of `live-data.js`
(repository rbcexcellence/rbctrade).

The JavaScript source is shallowly embedded: pure functions become Lean
functions; the process-wide relay rotation integer (`currentProxyIndex`) is
passed explicitly as state; JS numbers are modelled exactly by `JsNum`
(a rational for every finite double, plus NaN and the two infinities);
host primitives (`JSON.parse`, `encodeURIComponent`) are parameters of the
definitions that use them, and a concrete executable JSON parser/serializer
is provided so that theorems can be evaluated on closed inputs.
-/

namespace RbcLive

/-- Model of a JavaScript number: a finite value (exact rational), NaN,
or one of the two infinities. -/
inductive JsNum where
  | fin (q : ℚ)
  | nan
  | inf
  | ninf
deriving DecidableEq

/-- `Number.isFinite`. -/
def jsIsFinite : JsNum → Bool
  | .fin _ => true
  | _ => false

/-- Global `isNaN` on a number argument. -/
def jsIsNaN : JsNum → Bool
  | .nan => true
  | _ => false

/-! ## Relay descriptors and attempt order (live-data.js lines 9-20, 84-89) -/

/-- The `type` discriminator of a CORS relay descriptor. -/
inductive ProxyType where
  | raw
  | jina
  | alloriginsGet
  | path
deriving DecidableEq

/-- One entry of `CORS_PROXIES`. -/
structure ProxyDesc where
  name : String
  ptype : ProxyType
  base : String

/-- The `CORS_PROXIES` constant (live-data.js lines 9-18). -/
def CORS_PROXIES : List ProxyDesc :=
  [ ⟨"allorigins-raw", .raw, "https://api.allorigins.win/raw?url="⟩,
    ⟨"jina", .jina, "https://r.jina.ai/"⟩,
    ⟨"allorigins-get", .alloriginsGet, "https://api.allorigins.win/get?url="⟩,
    ⟨"corsproxy", .raw, "https://corsproxy.io/?"⟩,
    ⟨"cors-anywhere", .path, "https://cors-anywhere.herokuapp.com/"⟩ ]

/-- The attempt order built by `fetchJsonWithCorsFallback` (lines 85-89):
for `offset = 0 .. n-1` the relay at absolute index
`(startIndex + offset) % n`. -/
def attemptOrder (startIndex n : Nat) : List Nat :=
  (List.range n).map fun offset => (startIndex + offset) % n

/-! ## The fetch race (live-data.js lines 84-120)

All relay attempts are created eagerly and run concurrently (this is true in
both the `Promise.any` branch and the "sequential for older browsers"
branch, because the promises are created by the `map` before the loop).
Each attempt either fails or succeeds; a succeeding attempt executes
`currentProxyIndex = index` at the moment it settles, so the final value of
the rotation state is the index of the *last-settling* successful attempt.
We therefore model an execution by an `oracle` giving each attempt's
outcome and a `settleOrder` listing the attempt indices in the order in
which their promises settle. -/

/-- The error taxonomy of the fetch layer (spec section 7). -/
inductive FetchError where
  | network (msg : String)
  | httpStatus (code : Nat) (text : String)
  | badBody (msg : String)
  | allProxiesFailed
deriving DecidableEq

/-- Final value of `currentProxyIndex` after every attempt has settled:
each success overwrites the state with its own index, in settle order
(line 99: `currentProxyIndex = index`). -/
def finalProxyIndex {α : Type} (oracle : Nat → Except FetchError α)
    (settleOrder : List Nat) (start : Nat) : Nat :=
  settleOrder.foldl (fun st i => if (oracle i).isOk then i else st) start

/-- The value returned by `Promise.any`: the first successful attempt in
settle order, or `none` when every attempt fails (rejection). -/
def firstSuccessIn {α : Type} (oracle : Nat → Except FetchError α) :
    List Nat → Option (Nat × α)
  | [] => none
  | i :: rest =>
    match oracle i with
    | .ok v => some (i, v)
    | .error _ => firstSuccessIn oracle rest

/-- The sequential-fallback loop (lines 111-119): await the attempts in
attempt order, return the first success, remember the last error, and after
exhaustion throw the last error (or the generic all-proxies message when
there was no attempt at all). -/
def seqFetchAux {α : Type} (oracle : Nat → Except FetchError α) :
    List Nat → Option FetchError → Except FetchError α
  | [], lastErr => .error (lastErr.getD .allProxiesFailed)
  | i :: rest, lastErr =>
    match oracle i with
    | .ok v => .ok v
    | .error e => seqFetchAux oracle rest (some e)

/-- Return value of `fetchJsonWithCorsFallback` on the sequential path. -/
def fetchJsonSeq {α : Type} (n start : Nat)
    (oracle : Nat → Except FetchError α) : Except FetchError α :=
  seqFetchAux oracle (attemptOrder start n) none

/-! ### Helper lemmas about the fetch model -/

theorem finalProxyIndex_of_no_success {α : Type}
    (oracle : Nat → Except FetchError α) (settle : List Nat)
    (h : ∀ i ∈ settle, (oracle i).isOk = false) (start : Nat) :
    finalProxyIndex oracle settle start = start := by
  induction settle generalizing start with
  | nil => rfl
  | cons i rest ih =>
    have hi : (oracle i).isOk = false := h i (List.mem_cons_self i rest)
    have hstep : finalProxyIndex oracle (i :: rest) start
        = finalProxyIndex oracle rest (if (oracle i).isOk then i else start) := rfl
    rw [hstep, if_neg (by simp [hi])]
    exact ih (fun j hj => h j (List.mem_cons_of_mem i hj)) start

theorem seqFetchAux_all_fail {α : Type}
    (oracle : Nat → Except FetchError α) (order : List Nat)
    (hne : order ≠ [])
    (hfail : ∀ i ∈ order, ∃ e, oracle i = .error e) (le0 : Option FetchError) :
    ∃ e last, order.getLast? = some last ∧ oracle last = .error e ∧
      seqFetchAux oracle order le0 = .error e := by
  induction order generalizing le0 with
  | nil => exact absurd rfl hne
  | cons i rest ih =>
    obtain ⟨e, he⟩ := hfail i (List.mem_cons_self i rest)
    by_cases hr : rest = []
    · subst hr
      exact ⟨e, i, by simp, he, by simp [seqFetchAux, he]⟩
    · obtain ⟨e', last, h1, h2, h3⟩ :=
        ih hr (fun k hk => hfail k (List.mem_cons_of_mem i hk)) (some e)
      refine ⟨e', last, ?_, h2, ?_⟩
      · cases rest with
        | nil => exact absurd rfl hr
        | cons b t => rw [List.getLast?_cons_cons]; exact h1
      · simpa [seqFetchAux, he] using h3

theorem firstSuccessIn_none {α : Type}
    (oracle : Nat → Except FetchError α) (settle : List Nat)
    (h : ∀ i ∈ settle, (oracle i).isOk = false) :
    firstSuccessIn oracle settle = none := by
  induction settle with
  | nil => rfl
  | cons i rest ih =>
    have hi := h i (List.mem_cons_self i rest)
    cases ho : oracle i with
    | ok v => rw [ho] at hi; simp [Except.isOk, Except.toBool] at hi
    | error e =>
      simp only [firstSuccessIn, ho]
      exact ih fun j hj => h j (List.mem_cons_of_mem i hj)

/-! ## Claim C2: the attempt order is a rotation visiting each relay once -/

theorem attemptOrder_length (i n : Nat) : (attemptOrder i n).length = n := by
  simp [attemptOrder]

/-- Claim C2: for every rotation index `i < n` over a relay list of length
`n > 0`, the attempt order built by `fetchJsonWithCorsFallback` starts at
index `i`, has length `n`, contains no relay twice, and contains every
relay index `j < n`. -/
theorem attemptOrder_visits_each_relay_once (i n : Nat) (hn : 0 < n)
    (hi : i < n) :
    (attemptOrder i n).head? = some i ∧
    (attemptOrder i n).length = n ∧
    (attemptOrder i n).Nodup ∧
    ∀ j, j < n → j ∈ attemptOrder i n := by
  refine ⟨?_, attemptOrder_length i n, ?_, ?_⟩
  · obtain ⟨m, rfl⟩ := Nat.exists_eq_succ_of_ne_zero (Nat.pos_iff_ne_zero.mp hn)
    simp [attemptOrder, List.range_succ_eq_map, Nat.mod_eq_of_lt hi]
  · refine List.Nodup.map_on ?_ (List.nodup_range n)
    intro a ha b hb hab
    rw [List.mem_range] at ha hb
    have h1 : (i + a) % n = (i + b) % n := hab
    have h2 : a % n = b % n := Nat.ModEq.add_left_cancel' i h1
    rwa [Nat.mod_eq_of_lt ha, Nat.mod_eq_of_lt hb] at h2
  · intro j hj
    refine List.mem_map.mpr ⟨(n + j - i) % n, List.mem_range.mpr (Nat.mod_lt _ hn), ?_⟩
    have key : (i + (n + j - i) % n) % n = (i + (n + j - i)) % n :=
      Nat.add_mod_eq_add_mod_left i (Nat.mod_mod_of_dvd _ dvd_rfl)
    have hsum : i + (n + j - i) = n + j := by omega
    rw [key, hsum, Nat.add_mod_left, Nat.mod_eq_of_lt hj]

theorem attemptOrder_visits_each_relay_once_witness :
    (attemptOrder 2 5).head? = some 2 ∧
    (attemptOrder 2 5).length = 5 ∧
    (attemptOrder 2 5).Nodup ∧
    ∀ j, j < 5 → j ∈ attemptOrder 2 5 :=
  attemptOrder_visits_each_relay_once 2 5 (by decide) (by decide)

/-! ## Claim C1: total relay failure -/

/-- Claim C1: if every relay attempt for a target fails, then (a) the
rotation state is unchanged whatever the settle order of the attempts,
(b) the `Promise.any` race rejects (produces no value), and (c) the
sequential fallback rejects with exactly the last observed error — the
error of the final attempt in attempt order, which is the value the
all-proxies-failed rejection carries (line 119). -/
theorem fetch_allFail_rejects_with_last_error {α : Type} (n start : Nat)
    (oracle : Nat → Except FetchError α) (hn : 0 < n)
    (hfail : ∀ i ∈ attemptOrder start n, ∃ e, oracle i = .error e) :
    (∀ settle, (∀ i ∈ settle, i ∈ attemptOrder start n) →
        finalProxyIndex oracle settle start = start) ∧
    firstSuccessIn oracle (attemptOrder start n) = none ∧
    ∃ e last, (attemptOrder start n).getLast? = some last ∧
      oracle last = .error e ∧ fetchJsonSeq n start oracle = .error e := by
  have hfail' : ∀ i ∈ attemptOrder start n, (oracle i).isOk = false := by
    intro i hi
    obtain ⟨e, he⟩ := hfail i hi
    simp [he, Except.isOk, Except.toBool]
  refine ⟨?_, firstSuccessIn_none oracle _ hfail', ?_⟩
  · intro settle hsub
    exact finalProxyIndex_of_no_success oracle settle
      (fun i hi => hfail' i (hsub i hi)) start
  · have hne : attemptOrder start n ≠ [] := by
      have := attemptOrder_length start n
      intro h
      rw [h] at this
      simp at this
      omega
    exact seqFetchAux_all_fail oracle _ hne hfail none

theorem fetch_allFail_rejects_with_last_error_witness :
    finalProxyIndex (fun _ => (Except.error (.network "down") : Except FetchError ℚ))
        [1, 2, 3, 4, 0] 1 = 1 ∧
    firstSuccessIn (fun _ => (Except.error (.network "down") : Except FetchError ℚ))
        (attemptOrder 1 5) = none := by
  have h := fetch_allFail_rejects_with_last_error (α := ℚ) 5 1
    (fun _ => Except.error (.network "down")) (by decide)
    (fun i _ => ⟨.network "down", rfl⟩)
  exact ⟨h.1 [1, 2, 3, 4, 0] (by decide), h.2.1⟩

/-! ## Claim C9: rotation state mutation

The claim says the rotation state is mutated only by a successful attempt
(true), and that when relay 2 succeeds while relays 0 and 1 "fail or are
slower", the next call attempts relay 2 first.  The second half is FALSE
as stated: a slower attempt that eventually *succeeds* overwrites
`currentProxyIndex` when it settles, after the race was already won, so
the next call starts at the slower relay, not at the winner. -/

/-- Counterexample to claim C9 as stated: relay 2 succeeds and wins the
race (it is the first success in settle order), relay 1 fails, and relay 0
is slower but also succeeds (it settles last).  The rotation state ends at
0, so the next call's attempt order starts with relay 0, not relay 2. -/
theorem rotation_slower_success_counterexample :
    firstSuccessIn
        (fun i => if i = 0 then .ok (10 : ℚ)
          else if i = 2 then .ok 20 else .error (.network "fail"))
        [1, 2, 0] = some (2, 20) ∧
    finalProxyIndex
        (fun i => if i = 0 then .ok (10 : ℚ)
          else if i = 2 then .ok 20 else .error (.network "fail"))
        [1, 2, 0] 0 = 0 ∧
    (attemptOrder 0 5).head? = some 0 ∧
    (some 0 : Option Nat) ≠ some 2 := by
  refine ⟨rfl, rfl, rfl, by decide⟩

/-- Claim C9 (amended): the rotation state is mutated only by a successful
relay attempt and is then set to that succeeding relay's index (so it ends
at the index of the last-settling success); and in the scenario where
relay 2 is the *only* successful relay — relays 0 and 1 fail, however slow
they are — the rotation state ends at 2 and the next call's attempt order
lists relay 2 first. -/
theorem rotation_only_success_mutates :
    (∀ (oracle : Nat → Except FetchError ℚ) (settle : List Nat) (start : Nat),
      finalProxyIndex oracle settle start = start ∨
        (oracle (finalProxyIndex oracle settle start)).isOk = true) ∧
    (∀ (oracle : Nat → Except FetchError ℚ) (settle : List Nat) (v : ℚ),
      oracle 2 = .ok v → 2 ∈ settle →
      (∀ i ∈ settle, (oracle i).isOk = true → i = 2) →
      finalProxyIndex oracle settle 0 = 2 ∧
        (attemptOrder (finalProxyIndex oracle settle 0) 5).head? = some 2) := by
  constructor
  · intro oracle settle start
    induction settle generalizing start with
    | nil => exact Or.inl rfl
    | cons i rest ih =>
      have hstep : finalProxyIndex oracle (i :: rest) start
          = finalProxyIndex oracle rest (if (oracle i).isOk then i else start) := rfl
      rw [hstep]
      rcases ih (if (oracle i).isOk then i else start) with h | h
      · rw [h]
        by_cases hok : (oracle i).isOk = true
        · exact Or.inr (by rw [if_pos hok]; exact hok)
        · exact Or.inl (by rw [if_neg hok])
      · exact Or.inr h
  · intro oracle settle v hok hmem honly
    have key : ∀ (l : List Nat) (st : Nat), 2 ∈ l →
        (∀ i ∈ l, (oracle i).isOk = true → i = 2) →
        finalProxyIndex oracle l st = 2 := by
      intro l
      induction l with
      | nil => intro st h; exact absurd h (List.not_mem_nil 2)
      | cons i rest ih =>
        intro st hm ho
        by_cases hr : 2 ∈ rest
        · simp only [finalProxyIndex, List.foldl_cons]
          exact ih _ hr fun j hj => ho j (List.mem_cons_of_mem i hj)
        · have hi2 : i = 2 := by
            rcases List.mem_cons.mp hm with h | h
            · exact h.symm
            · exact absurd h hr
          subst hi2
          have hok2 : (oracle 2).isOk = true := by simp [hok, Except.isOk, Except.toBool]
          simp only [finalProxyIndex, List.foldl_cons, hok2, if_pos]
          have hrest : ∀ j ∈ rest, (oracle j).isOk = false := by
            intro j hj
            by_contra hc
            simp only [Bool.not_eq_false] at hc
            exact hr (ho j (List.mem_cons_of_mem 2 hj) hc ▸ hj)
          exact finalProxyIndex_of_no_success oracle rest hrest 2
    have h2 := key settle 0 hmem honly
    exact ⟨h2, by rw [h2]; rfl⟩

theorem rotation_only_success_mutates_witness :
    finalProxyIndex
        (fun i => if i = 2 then .ok (20 : ℚ) else .error (.network "fail"))
        [0, 1, 2, 3, 4] 0 = 2 ∧
    (attemptOrder (finalProxyIndex
        (fun i => if i = 2 then .ok (20 : ℚ) else .error (.network "fail"))
        [0, 1, 2, 3, 4] 0) 5).head? = some 2 := by
  exact rotation_only_success_mutates.2
    (fun i => if i = 2 then .ok (20 : ℚ) else .error (.network "fail"))
    [0, 1, 2, 3, 4] 20 rfl (by decide)
    (by
      intro i hi hok
      fin_cases hi <;> simp_all [Except.isOk, Except.toBool])

/-! ## Quote normalizer for chart payloads (live-data.js lines 650-671,
762-775, 865-878; shared shape across equities / indices / commodities) -/

/-- One entry of a parallel time series (`indicators.quote[0].close` etc.):
either a JS number or `null`. -/
inductive SeriesVal where
  | num (x : JsNum)
  | null
deriving DecidableEq

/-- The finite-number part of a series entry: `some q` exactly when the
entry satisfies `typeof v === 'number' && Number.isFinite(v)`. -/
def finPart : SeriesVal → Option ℚ
  | .num (.fin q) => some q
  | _ => none

/-- `lastFinite`'s backward loop over an array (lines 175-178): the last
entry that is a finite number.  The recursion prefers the result found in
the tail (later indices), matching the loop that runs from the end. -/
def lastFiniteList : List SeriesVal → Option ℚ
  | [] => none
  | v :: rest =>
    match lastFiniteList rest with
    | some q => some q
    | none => finPart v

/-- `lastFinite(values)` (lines 173-180): `undefined` when the argument is
not an array (modelled by `none`) or the array holds no finite number. -/
def lastFinite (values : Option (List SeriesVal)) : Option ℚ :=
  match values with
  | none => none
  | some l => lastFiniteList l

/-- The `meta` object fields used by the normalizer. -/
structure ChartMeta where
  regularMarketPrice : Option JsNum
  chartPreviousClose : Option JsNum
  previousClose : Option JsNum

/-- The part of `data.chart.result[0]` the price/change computation reads:
`meta` (possibly absent, line 652/760/863) and the parallel close series
`indicators.quote[0].close` (possibly absent). -/
structure ChartResult where
  meta : Option ChartMeta
  close : Option (List SeriesVal)

/-- JS truthiness of a possibly-undefined number: `0`, `NaN` and
`undefined` are falsy, every other number (infinities included) truthy. -/
def jsNumTruthy : Option JsNum → Bool
  | some (.fin q) => decide (q ≠ 0)
  | some .nan => false
  | some .inf => true
  | some .ninf => true
  | none => false

/-- JS `a || b` on two number-or-undefined values (line 662:
`result.meta.chartPreviousClose || result.meta.previousClose`). -/
def jsOrNum (a b : Option JsNum) : Option JsNum :=
  if jsNumTruthy a then a else b

/-- `result.meta.regularMarketPrice ?? seriesClose` (line 659): nullish
coalescing keeps any present number, falling back to the last finite close
otherwise. -/
def resolveCurrentPrice (m : ChartMeta) (close : Option (List SeriesVal)) :
    Option JsNum :=
  match m.regularMarketPrice with
  | some x => some x
  | none => (lastFinite close).map JsNum.fin

/-- Line 663: `previousClose ? ((currentPrice - previousClose) / previousClose) * 100 : 0`.
A truthy non-finite previous close (±Infinity) makes the float formula
evaluate to NaN. -/
def computeChange (p : ℚ) (m : ChartMeta) : JsNum :=
  let pc := jsOrNum m.chartPreviousClose m.previousClose
  if jsNumTruthy pc then
    match pc with
    | some (.fin c) => .fin ((p - c) / c * 100)
    | _ => .nan
  else .fin 0

/-- The normalized outcome of one chart payload: resolved price and
percent change. -/
structure NormQuote where
  price : ℚ
  change : JsNum
deriving DecidableEq

/-- The price/change portion of the per-symbol normalizer (lines 650-663):
returns the "no data" sentinel `none` (the code's `return 0`) when `meta`
is absent or the resolved price is not a finite number greater than 0. -/
def normalizeChart (r : ChartResult) : Option NormQuote :=
  match r.meta with
  | none => none
  | some m =>
    match resolveCurrentPrice m r.close with
    | some (.fin p) => if 0 < p then some ⟨p, computeChange p m⟩ else none
    | _ => none

/-! ### Claims C5 and C6 -/

theorem lastFiniteList_eq_getLast? (l : List SeriesVal) :
    lastFiniteList l = (l.filterMap finPart).getLast? := by
  induction l with
  | nil => rfl
  | cons v rest ih =>
    rw [List.filterMap_cons]
    cases hv : finPart v with
    | none =>
      simp only [lastFiniteList, ih]
      cases hr : (rest.filterMap finPart).getLast? with
      | none => simp [hv]
      | some q => rfl
    | some q =>
      simp only [lastFiniteList, ih]
      cases hr : rest.filterMap finPart with
      | nil => simp [hr, hv]
      | cons b t =>
        have : ((b :: t).getLast?).isSome := by
          cases t with
          | nil => rfl
          | cons c u => simp [List.getLast?_cons_cons, List.getLast?_isSome]
        cases hg : (b :: t).getLast? with
        | none => rw [hg] at this; simp at this
        | some w => simp [hr, hg, List.getLast?_cons_cons]

/-- Claim C6: the normalizer resolves the price as
`meta.regularMarketPrice` when present, otherwise as the last finite value
of the parallel close series, and it returns the "no data" sentinel
exactly when the resolved price is not a finite number greater than zero
(given that `meta` is present at all). -/
theorem price_resolution_and_no_data_sentinel (r : ChartResult)
    (m : ChartMeta) (hm : r.meta = some m) :
    (∀ x, m.regularMarketPrice = some x →
      resolveCurrentPrice m r.close = some x) ∧
    (m.regularMarketPrice = none →
      resolveCurrentPrice m r.close =
        (((r.close.getD []).filterMap finPart).getLast?).map JsNum.fin) ∧
    (normalizeChart r = none ↔
      ¬ ∃ p : ℚ, resolveCurrentPrice m r.close = some (.fin p) ∧ 0 < p) := by
  refine ⟨?_, ?_, ?_⟩
  · intro x hx
    simp [resolveCurrentPrice, hx]
  · intro hx
    simp only [resolveCurrentPrice, hx]
    cases hc : r.close with
    | none => simp [lastFinite, hc]
    | some l => simp [lastFinite, hc, lastFiniteList_eq_getLast?]
  · simp only [normalizeChart, hm]
    cases hp : resolveCurrentPrice m r.close with
    | none => simp
    | some x =>
      cases x with
      | fin p =>
        by_cases h0 : 0 < p
        · simp [h0]
        · simp only [if_neg h0]
          constructor
          · rintro - ⟨q, hq, hq0⟩
            rw [Option.some_inj] at hq
            cases hq
            exact h0 hq0
          · intro; trivial
      | nan => simp
      | inf => simp
      | ninf => simp

theorem price_resolution_and_no_data_sentinel_witness :
    (resolveCurrentPrice ⟨none, none, none⟩
        (some [.num (.fin 3), .num .nan, .num (.fin 7), .null]) =
      some (.fin 7)) ∧
    normalizeChart ⟨some ⟨some (.fin 0), none, none⟩, none⟩ = none := by
  have h := price_resolution_and_no_data_sentinel
    ⟨some ⟨none, none, none⟩, some [.num (.fin 3), .num .nan, .num (.fin 7), .null]⟩
    ⟨none, none, none⟩ rfl
  have h2 := price_resolution_and_no_data_sentinel
    ⟨some ⟨some (.fin 0), none, none⟩, none⟩ ⟨some (.fin 0), none, none⟩ rfl
  refine ⟨?_, ?_⟩
  · rw [h.2.1 rfl]; rfl
  · refine h2.2.2.mpr ?_
    rintro ⟨p, hp, hp0⟩
    have : (JsNum.fin 0) = JsNum.fin p := by
      have := h2.1 (.fin 0) rfl
      rw [this] at hp
      exact Option.some_inj.mp hp
    cases this
    exact absurd hp0 (by norm_num)

/-- Claim C5: for a payload with `meta` present whose resolved price is a
finite number `p > 0`, the normalizer produces a quote whose change is
exactly `(p - previousClose) / previousClose * 100` when the resolved
previous close (`chartPreviousClose || previousClose`) is a finite nonzero
number, and exactly `0` when it is undefined or `0`. -/
theorem change_formula_exact (r : ChartResult) (m : ChartMeta) (p : ℚ)
    (hm : r.meta = some m)
    (hres : resolveCurrentPrice m r.close = some (.fin p)) (hp : 0 < p) :
    normalizeChart r = some ⟨p, computeChange p m⟩ ∧
    (∀ c : ℚ, jsOrNum m.chartPreviousClose m.previousClose = some (.fin c) →
      c ≠ 0 → computeChange p m = .fin ((p - c) / c * 100)) ∧
    (jsOrNum m.chartPreviousClose m.previousClose = none ∨
        jsOrNum m.chartPreviousClose m.previousClose = some (.fin 0) →
      computeChange p m = .fin 0) := by
  refine ⟨by simp [normalizeChart, hm, hres, hp], ?_, ?_⟩
  · intro c hc hc0
    simp [computeChange, hc, jsNumTruthy, hc0]
  · rintro (h | h) <;> simp [computeChange, h, jsNumTruthy]

theorem change_formula_exact_witness :
    normalizeChart
        ⟨some ⟨some (.fin (15023/100)), some (.fin 148), none⟩, none⟩ =
      some ⟨15023/100, .fin ((15023/100 - 148) / 148 * 100)⟩ := by
  have h := change_formula_exact
    ⟨some ⟨some (.fin (15023/100)), some (.fin 148), none⟩, none⟩
    ⟨some (.fin (15023/100)), some (.fin 148), none⟩ (15023/100) rfl rfl
    (by norm_num)
  rw [h.1]
  have hc := h.2.1 148 (by rfl) (by norm_num)
  rw [hc]

/-! ## Badge updates (live-data.js lines 182-188) -/

/-- The DOM state of a badge element that `updateBadge` touches. -/
structure BadgeEl where
  className : String
  textContent : String
deriving DecidableEq

/-- Decimal `toFixed(2)` of a finite value, per the ECMAScript algorithm:
the sign is split off first, then the magnitude is rounded to the nearest
hundredth with ties away from zero. -/
def toFixed2Abs (x : ℚ) : String :=
  let m : Nat := (⌊x * 100 + 1 / 2⌋).toNat
  toString (m / 100) ++ "." ++
    (if m % 100 < 10 then "0" ++ toString (m % 100) else toString (m % 100))

def toFixed2 (q : ℚ) : String :=
  if q < 0 then "-" ++ toFixed2Abs (-q) else toFixed2Abs q

/-- `change.toFixed(2)` on a JS number (NaN never reaches it inside
`updateBadge`). -/
def jsToFixed2 : JsNum → String
  | .fin q => toFixed2 q
  | .nan => "NaN"
  | .inf => "Infinity"
  | .ninf => "-Infinity"

/-- JS `change >= 0`. -/
def jsGE0 : JsNum → Bool
  | .fin q => decide (0 ≤ q)
  | .nan => false
  | .inf => true
  | .ninf => false

/-- `updateBadge(element, change)` (lines 182-188), acting on the badge
state: a missing element or a NaN change leaves everything untouched;
otherwise the class and text are rewritten from the sign of `change`. -/
def updateBadge (element : Option BadgeEl) (change : JsNum) : Option BadgeEl :=
  match element with
  | none => none
  | some el =>
    if jsIsNaN change then some el
    else
      let isPositive := jsGE0 change
      some { className := "badge " ++ (if isPositive then "positive" else "negative"),
             textContent :=
               (if isPositive then "+" else "") ++ jsToFixed2 change ++ "%" }

/-- Claim C10: `updateBadge` leaves the badge unchanged when the element
is missing or the change is NaN (so a badge is never overwritten with a
NaN-derived string), and for a finite change sets class
`"badge positive"` with a `"+"`-prefixed two-decimal percentage when the
change is nonnegative, class `"badge negative"` with an unprefixed
two-decimal percentage otherwise. -/
theorem updateBadge_frame_and_format :
    (∀ change, updateBadge none change = none) ∧
    (∀ el, updateBadge (some el) .nan = some el) ∧
    (∀ el (q : ℚ), 0 ≤ q → updateBadge (some el) (.fin q) =
      some ⟨"badge positive", "+" ++ toFixed2 q ++ "%"⟩) ∧
    (∀ el (q : ℚ), q < 0 → updateBadge (some el) (.fin q) =
      some ⟨"badge negative", toFixed2 q ++ "%"⟩) := by
  refine ⟨fun _ => rfl, fun _ => rfl, ?_, ?_⟩
  · intro el q hq
    simp [updateBadge, jsIsNaN, jsGE0, jsToFixed2, hq]
  · intro el q hq
    simp [updateBadge, jsIsNaN, jsGE0, jsToFixed2, not_le.mpr hq]

theorem updateBadge_frame_and_format_witness :
    updateBadge (some ⟨"badge", "old"⟩) (.fin (3/2)) =
      some ⟨"badge positive", "+1.50%"⟩ := by
  rw [updateBadge_frame_and_format.2.2.1 ⟨"badge", "old"⟩ (3/2) (by norm_num)]
  have hneg : ¬ ((3/2 : ℚ) < 0) := by norm_num
  have hfl : (⌊(3/2 : ℚ) * 100 + 1/2⌋ : ℤ) = 150 := by
    rw [Int.floor_eq_iff]
    norm_num
  simp only [toFixed2, if_neg hneg, toFixed2Abs, hfl]
  decide

/-! ## Local cache store (live-data.js lines 26-27, 190-243)

Cache entries live in a JSON blob under one localStorage key.  A parsed
entry is an association list of fields; field values are the JS primitives
that can appear there. -/

/-- A field value inside a cache entry or an incoming `setCacheEntry`
payload: a number, a string, a boolean, `null`, or `undefined` (an
explicitly-undefined property, as the normalizers pass for absent
extras). -/
inductive MVal where
  | num (x : JsNum)
  | str (s : String)
  | boolv (b : Bool)
  | nullv
  | undef
deriving DecidableEq

/-- First-match lookup in an association list (JS property read). -/
def lookupField : List (String × MVal) → String → Option MVal
  | [], _ => none
  | (k, v) :: rest, key => if k = key then some v else lookupField rest key

/-- JS property write `obj[k] = v`: replace the existing binding in place
or append a new one. -/
def upsert : List (String × MVal) → String → MVal → List (String × MVal)
  | [], k, v => [(k, v)]
  | (k', v') :: rest, k, v =>
    if k' = k then (k, v) :: rest else (k', v') :: upsert rest k v

/-- Decimal digits of a `Number(string)` coercion. -/
def digitVal (c : Char) : Option Nat :=
  if '0' ≤ c ∧ c ≤ '9' then some (c.toNat - '0'.toNat) else none

def takeDigits : List Char → List Nat × List Char
  | [] => ([], [])
  | c :: rest =>
    match digitVal c with
    | some d =>
      let p := takeDigits rest
      (d :: p.1, p.2)
    | none => ([], c :: rest)

def digitsToNat (ds : List Nat) : Nat :=
  ds.foldl (fun a d => a * 10 + d) 0

/-- Parse an optionally signed decimal literal (`[+-]? digits [. digits]`),
the fragment of JS `Number(string)` this model covers. -/
def parseDecCore (cs : List Char) : Option ℚ :=
  let sp : ℚ × List Char :=
    match cs with
    | '-' :: r => (-1, r)
    | '+' :: r => (1, r)
    | _ => (1, cs)
  let dp := takeDigits sp.2
  match dp.2 with
  | [] => if dp.1 = [] then none else some (sp.1 * digitsToNat dp.1)
  | '.' :: cs3 =>
    let fp := takeDigits cs3
    if fp.2 = [] ∧ (dp.1 ≠ [] ∨ fp.1 ≠ []) then
      some (sp.1 * ((digitsToNat dp.1 : ℚ) +
        (digitsToNat fp.1 : ℚ) / (10 ^ fp.1.length)))
    else none
  | _ => none

/-- JS `Number(string)` (decimal subset: hex/exponent/`Infinity` literals
are conservatively mapped to NaN). -/
def strToNum (s : String) : JsNum :=
  let t := s.trim
  if t = "" then .fin 0
  else
    match parseDecCore t.toList with
    | some q => .fin q
    | none => .nan

/-- JS `Number(v)` on a possibly-absent primitive value. -/
def jsToNumber : Option MVal → JsNum
  | none => .nan
  | some (.num x) => x
  | some (.str s) => strToNum s
  | some (.boolv b) => .fin (if b then 1 else 0)
  | some .nullv => .fin 0
  | some .undef => .nan

/-- `Number(entry?.tsMs)` for an object-valued entry (line 200). -/
def entryTs (e : List (String × MVal)) : JsNum :=
  jsToNumber (lookupField e "tsMs")

/-- `LIVE_CACHE_MAX_AGE_MS` (line 27): 7 days in milliseconds. -/
def LIVE_CACHE_MAX_AGE_MS : ℚ := 1000 * 60 * 60 * 24 * 7

/-- One value of the parsed cache blob: an object entry (an association
list of fields) or a non-object JS value (whose `?.tsMs` is undefined). -/
inductive CacheVal where
  | entO (e : List (String × MVal))
  | prim (v : MVal)
deriving DecidableEq

/-- The outcome of reading and `JSON.parse`-ing the persisted blob:
missing key, parse failure, parsed non-object (primitives and `null`,
which fail the `!parsed || typeof parsed !== 'object'` guard), or a
parsed object. -/
inductive StoredBlob where
  | missing
  | parseFail
  | nonObject
  | objBlob (m : List (String × CacheVal))

/-- The keep condition of the purge loop (lines 198-204): an entry
survives iff `Number(entry?.tsMs)` is finite and `now - tsMs` does not
exceed the max age. -/
def keepVal (now : ℚ) : CacheVal → Bool
  | .entO e =>
    match entryTs e with
    | .fin t => decide (¬ now - t > LIVE_CACHE_MAX_AGE_MS)
    | _ => false
  | .prim _ => false

/-- `loadLiveCache()` (lines 190-210) as a function of the current time
and the parse outcome: empty mapping on missing/unparsable/non-object
content, otherwise the parsed object with stale entries deleted
(iterating `Object.keys` and deleting is a filter). -/
def loadLiveCache (now : ℚ) (blob : StoredBlob) : List (String × CacheVal) :=
  match blob with
  | .missing => []
  | .parseFail => []
  | .nonObject => []
  | .objBlob m => m.filter fun kv => keepVal now kv.2

/-- Claim C7: `loadLiveCache` returns the empty mapping on a missing,
unparsable or non-object blob, and on an object blob it returns exactly
the entries (with all their original fields) whose capture timestamp is a
finite number no older than 7 days; entries whose timestamp is older or
not finite are absent. -/
theorem loadLiveCache_expiry (now : ℚ) (blob : StoredBlob) :
    (blob = .missing ∨ blob = .parseFail ∨ blob = .nonObject →
      loadLiveCache now blob = []) ∧
    (∀ m, blob = .objBlob m → ∀ k v,
      ((k, v) ∈ loadLiveCache now blob ↔
        (k, v) ∈ m ∧ ∃ e t, v = .entO e ∧ entryTs e = .fin t ∧
          now - t ≤ LIVE_CACHE_MAX_AGE_MS)) := by
  constructor
  · rintro (rfl | rfl | rfl) <;> rfl
  · rintro m rfl k v
    rw [loadLiveCache, List.mem_filter]
    constructor
    · rintro ⟨hmem, hkeep⟩
      refine ⟨hmem, ?_⟩
      cases v with
      | prim w => simp [keepVal] at hkeep
      | entO e =>
        refine ⟨e, ?_⟩
        cases ht : entryTs e with
        | fin t =>
          refine ⟨t, rfl, rfl, ?_⟩
          simp only [keepVal, ht, decide_eq_true_eq, not_lt] at hkeep
          exact hkeep
        | nan => simp [keepVal, ht] at hkeep
        | inf => simp [keepVal, ht] at hkeep
        | ninf => simp [keepVal, ht] at hkeep
    · rintro ⟨hmem, e, t, rfl, ht, hfresh⟩
      exact ⟨hmem, by simp [keepVal, ht, not_lt, hfresh]⟩

theorem loadLiveCache_expiry_witness :
    ("fresh", CacheVal.entO [("tsMs", .num (.fin 999999999)), ("price", .num (.fin 5))]) ∈
      loadLiveCache 1000000000
        (.objBlob
          [("fresh", .entO [("tsMs", .num (.fin 999999999)), ("price", .num (.fin 5))]),
           ("stale", .entO [("tsMs", .num (.fin 0))])]) ∧
    ¬ ("stale", CacheVal.entO [("tsMs", .num (.fin 0))]) ∈
      loadLiveCache 1000000000
        (.objBlob
          [("fresh", .entO [("tsMs", .num (.fin 999999999)), ("price", .num (.fin 5))]),
           ("stale", .entO [("tsMs", .num (.fin 0))])]) := by
  have h := loadLiveCache_expiry 1000000000
    (.objBlob
      [("fresh", .entO [("tsMs", .num (.fin 999999999)), ("price", .num (.fin 5))]),
       ("stale", .entO [("tsMs", .num (.fin 0))])])
  constructor
  · refine (h.2 _ rfl "fresh" _).mpr ⟨by simp, _, 999999999, rfl, ?_, by norm_num [LIVE_CACHE_MAX_AGE_MS]⟩
    rfl
  · intro hmem
    obtain ⟨-, e, t, he, ht, hfresh⟩ := (h.2 _ rfl "stale" _).mp hmem
    cases he
    have ht0 : t = 0 := by
      have : JsNum.fin 0 = JsNum.fin t := by
        rw [← ht]; rfl
      cases this; rfl
    rw [ht0] at hfresh
    norm_num [LIVE_CACHE_MAX_AGE_MS] at hfresh

/-! ## `setCacheEntry` merge semantics (live-data.js lines 220-243)

The loop over `Object.entries(data)` skips `undefined`, skips non-finite
numbers and blank strings, but assigns EVERY other defined value —
booleans, `null` and nested objects included — so "only finite numbers or
non-empty strings overwrite" is false as stated. -/

/-- One iteration of the merge loop (lines 226-237) on the accumulated
`next` object. -/
def mergeField (acc : List (String × MVal)) (k : String) (v : MVal) :
    List (String × MVal) :=
  match v with
  | .undef => acc
  | .num x => if jsIsFinite x then upsert acc k v else acc
  | .str s => if s.trim ≠ "" then upsert acc k v else acc
  | _ => upsert acc k v

/-- The merged entry produced by `setCacheEntry` for one key: spread of
the previous entry, the filtered assignments from `data`, then
`next.tsMs = Date.now()` (lines 222-240). -/
def setCacheEntryMerge (now : ℚ) (prev data : List (String × MVal)) :
    List (String × MVal) :=
  upsert (data.foldl (fun acc kv => mergeField acc kv.1 kv.2) prev)
    "tsMs" (.num (.fin now))

/-- Whether an incoming value survives the merge-loop filter: everything
defined except non-finite numbers and blank strings. -/
def overwriteOK : MVal → Bool
  | .undef => false
  | .num x => jsIsFinite x
  | .str s => decide (s.trim ≠ "")
  | _ => true

theorem lookupField_upsert_self (l : List (String × MVal)) (k : String)
    (v : MVal) : lookupField (upsert l k v) k = some v := by
  induction l with
  | nil => simp [upsert, lookupField]
  | cons kv rest ih =>
    obtain ⟨k', v'⟩ := kv
    by_cases h : k' = k
    · simp [upsert, h, lookupField]
    · simp [upsert, h, lookupField, ih]

theorem lookupField_upsert_ne (l : List (String × MVal)) (k key : String)
    (v : MVal) (h : k ≠ key) :
    lookupField (upsert l k v) key = lookupField l key := by
  induction l with
  | nil => simp [upsert, lookupField, h]
  | cons kv rest ih =>
    obtain ⟨k', v'⟩ := kv
    by_cases hk : k' = k
    · subst hk
      simp [upsert, lookupField, h]
    · by_cases hkey : k' = key
      · subst hkey
        simp [upsert, hk, lookupField]
      · simp [upsert, hk, lookupField, hkey, ih]

theorem lookupField_mergeField (acc : List (String × MVal)) (k key : String)
    (v : MVal) :
    lookupField (mergeField acc k v) key =
      if k = key ∧ overwriteOK v then some v else lookupField acc key := by
  by_cases hk : k = key
  · subst hk
    cases v with
    | num x =>
      by_cases hf : jsIsFinite x = true
      · simp [mergeField, hf, overwriteOK, lookupField_upsert_self]
      · simp only [Bool.not_eq_true] at hf
        simp [mergeField, hf, overwriteOK]
    | str s =>
      by_cases hs : s.trim ≠ ""
      · simp [mergeField, hs, overwriteOK, lookupField_upsert_self]
      · simp only [ne_eq, not_not] at hs
        simp [mergeField, hs, overwriteOK]
    | boolv b => simp [mergeField, overwriteOK, lookupField_upsert_self]
    | nullv => simp [mergeField, overwriteOK, lookupField_upsert_self]
    | undef => simp [mergeField, overwriteOK]
  · have hne : ¬ (k = key ∧ overwriteOK v = true) := fun h => hk h.1
    rw [if_neg hne]
    cases v with
    | num x =>
      by_cases hf : jsIsFinite x = true
      · simp [mergeField, hf, lookupField_upsert_ne _ _ _ _ hk]
      · simp only [Bool.not_eq_true] at hf
        simp [mergeField, hf]
    | str s =>
      by_cases hs : s.trim ≠ ""
      · simp [mergeField, hs, lookupField_upsert_ne _ _ _ _ hk]
      · simp only [ne_eq, not_not] at hs
        simp [mergeField, hs]
    | boolv b => simp [mergeField, lookupField_upsert_ne _ _ _ _ hk]
    | nullv => simp [mergeField, lookupField_upsert_ne _ _ _ _ hk]
    | undef => simp [mergeField]

theorem lookupField_foldl_not_mem (data : List (String × MVal))
    (p : List (String × MVal)) (key : String)
    (h : key ∉ data.map Prod.fst) :
    lookupField (data.foldl (fun acc kv => mergeField acc kv.1 kv.2) p) key =
      lookupField p key := by
  induction data generalizing p with
  | nil => rfl
  | cons kv rest ih =>
    obtain ⟨k0, v0⟩ := kv
    simp only [List.map_cons, List.mem_cons] at h
    push_neg at h
    rw [List.foldl_cons, ih _ h.2, lookupField_mergeField,
      if_neg fun hc => h.1 hc.1.symm]

/-- Counterexample to claim C8 as stated: an incoming `true` (a defined
value that is neither a finite number nor a non-empty string) DOES
overwrite the previous numeric field, because the merge loop's final
branch assigns every remaining defined value. -/
theorem setCacheEntry_nonscalar_overwrites_counterexample :
    lookupField
        (setCacheEntryMerge 99 [("x", .num (.fin 1))] [("x", .boolv true)])
        "x" = some (.boolv true) ∧
    some (MVal.boolv true) ≠ some (MVal.num (.fin 1)) := by
  exact ⟨rfl, by simp⟩

/-- Claim C8 (amended): `setCacheEntry` merges shallowly; an incoming
field overwrites the previous value iff it is defined and is not a
non-finite number and not a blank (whitespace-only) string — booleans,
`null` and other defined non-number non-string values overwrite too;
every field not so overwritten keeps its previous value; and the entry's
`tsMs` is always set to the current time. -/
theorem setCacheEntry_merge_characterization (now : ℚ)
    (prev data : List (String × MVal)) (key : String)
    (hnd : (data.map Prod.fst).Nodup) :
    lookupField (setCacheEntryMerge now prev data) key =
      if key = "tsMs" then some (.num (.fin now))
      else
        match lookupField data key with
        | some v => if overwriteOK v then some v else lookupField prev key
        | none => lookupField prev key := by
  rw [setCacheEntryMerge]
  by_cases hts : key = "tsMs"
  · subst hts
    rw [lookupField_upsert_self, if_pos rfl]
  · rw [lookupField_upsert_ne _ _ _ _ fun h => hts h.symm, if_neg hts]
    clear hts
    induction data generalizing prev with
    | nil => rfl
    | cons kv rest ih =>
      obtain ⟨k0, v0⟩ := kv
      simp only [List.map_cons, List.nodup_cons] at hnd
      rw [List.foldl_cons]
      by_cases hk : k0 = key
      · subst hk
        rw [lookupField_foldl_not_mem rest _ k0 hnd.1,
          lookupField_mergeField]
        by_cases hov : overwriteOK v0 = true
        · simp [lookupField, hov]
        · simp only [Bool.not_eq_true] at hov
          simp [lookupField, hov]
      · rw [ih _ hnd.2]
        have hcons : lookupField ((k0, v0) :: rest) key = lookupField rest key := by
          simp [lookupField, hk]
        rw [hcons]
        cases hrest : lookupField rest key with
        | none =>
          simp only []
          rw [lookupField_mergeField, if_neg fun hc => hk hc.1]
        | some v =>
          by_cases hov : overwriteOK v = true
          · simp [hov]
          · simp only [Bool.not_eq_true] at hov
            simp only [hov, Bool.false_eq_true, if_false]
            rw [lookupField_mergeField, if_neg fun hc => hk hc.1]

theorem setCacheEntry_merge_characterization_witness :
    lookupField
        (setCacheEntryMerge 7
          [("price", .num (.fin 100)), ("name", .str "Gold")]
          [("price", .num (.fin 101)), ("name", .num .nan), ("pe", .undef)])
        "name" = some (.str "Gold") := by
  rw [setCacheEntry_merge_characterization 7
    [("price", .num (.fin 100)), ("name", .str "Gold")]
    [("price", .num (.fin 101)), ("name", .num .nan), ("pe", .undef)]
    "name" (by decide)]
  rfl

/-! ## Concurrency-bounded mapper (live-data.js lines 122-139)

`mapWithConcurrency(items, concurrency, mapper)` allocates
`results = new Array(items.length)` (all slots undefined, modelled as
`none`), spawns `Math.min(concurrency, items.length)` worker loops sharing
the counter `nextIndex`, and awaits them all.  Each worker repeatedly:
checks `nextIndex < items.length` and claims `current = nextIndex++`
(atomic between awaits on the JS event loop), awaits the mapper, then
writes the result — or `0` if the mapper threw — into slot `current`.

We model this as a small-step transition system: the items enter only
through `oracle i`, the settled outcome of `mapper(items[i], i)`; the
event-loop interleaving is an arbitrary schedule, so a theorem over all
reachable terminal states covers every completion order. -/

/-- What one worker loop is doing: about to test the loop condition,
awaiting the mapper for a claimed index, or finished. -/
inductive WStatus where
  | ready
  | waiting (current : Nat)
  | done
deriving DecidableEq

/-- The shared state of `mapWithConcurrency` with `k` workers. -/
structure MState (k : Nat) where
  nextIndex : Nat
  results : List (Option ℚ)
  workers : Fin k → WStatus

/-- Settled value written into the results slot for item `i`:
the mapper's value, or the neutral `0` when it threw (lines 129-133). -/
def settleTask (oracle : Nat → Except Unit ℚ) (i : Nat) : ℚ :=
  match oracle i with
  | .ok v => v
  | .error _ => 0

/-- One event-loop step of some worker. -/
inductive MStep (n : Nat) (oracle : Nat → Except Unit ℚ) {k : Nat} :
    MState k → MState k → Prop where
  | claim (s : MState k) (w : Fin k) (hw : s.workers w = .ready)
      (hlt : s.nextIndex < n) :
      MStep n oracle s
        ⟨s.nextIndex + 1, s.results,
          Function.update s.workers w (.waiting s.nextIndex)⟩
  | finish (s : MState k) (w : Fin k) (hw : s.workers w = .ready)
      (hge : n ≤ s.nextIndex) :
      MStep n oracle s
        ⟨s.nextIndex, s.results, Function.update s.workers w .done⟩
  | resume (s : MState k) (w : Fin k) (c : Nat)
      (hw : s.workers w = .waiting c) :
      MStep n oracle s
        ⟨s.nextIndex, s.results.set c (some (settleTask oracle c)),
          Function.update s.workers w .ready⟩

/-- Initial state: `results = new Array(n)` and
`Math.min(limit, n)` ready workers. -/
def mInit (n k : Nat) : MState k :=
  ⟨0, List.replicate n none, fun _ => .ready⟩

/-- All workers have returned, i.e. `Promise.all(workers)` has resolved. -/
def MTerminal {k : Nat} (s : MState k) : Prop :=
  ∀ w, s.workers w = .done

/-- Invariant maintained by every step of the mapper. -/
structure MInv (n : Nat) (oracle : Nat → Except Unit ℚ) {k : Nat}
    (s : MState k) : Prop where
  len_eq : s.results.length = n
  next_le : s.nextIndex ≤ n
  waiting_lt : ∀ w c, s.workers w = .waiting c → c < s.nextIndex
  waiting_inj : ∀ w w' c, s.workers w = .waiting c →
    s.workers w' = .waiting c → w = w'
  filled : ∀ i, i < s.nextIndex → (∀ w, s.workers w ≠ .waiting i) →
    s.results.get? i = some (some (settleTask oracle i))
  done_next : ∀ w, s.workers w = .done → n ≤ s.nextIndex

theorem list_get?_set_self {α : Type} (l : List α) (i : Nat) (a : α)
    (h : i < l.length) : (l.set i a).get? i = some a := by
  induction l generalizing i with
  | nil => simp at h
  | cons x rest ih =>
    cases i with
    | zero => rfl
    | succ j =>
      simp only [List.set_cons_succ, List.get?_cons_succ]
      exact ih j (by simpa using h)

theorem list_get?_set_ne {α : Type} (l : List α) (i j : Nat) (a : α)
    (h : i ≠ j) : (l.set i a).get? j = l.get? j := by
  induction l generalizing i j with
  | nil => simp
  | cons x rest ih =>
    cases i with
    | zero =>
      cases j with
      | zero => exact absurd rfl h
      | succ j' => rfl
    | succ i' =>
      cases j with
      | zero => rfl
      | succ j' =>
        simp only [List.set_cons_succ, List.get?_cons_succ]
        exact ih i' j' fun hc => h (by rw [hc])

theorem minv_init (n k : Nat) (oracle : Nat → Except Unit ℚ) :
    MInv n oracle (mInit n k) := by
  refine ⟨by simp [mInit], Nat.zero_le n, ?_, ?_, ?_, ?_⟩
  · intro w c hw
    simp [mInit] at hw
  · intro w w' c hw
    simp [mInit] at hw
  · intro i hi
    simp [mInit] at hi
  · intro w hw
    simp [mInit] at hw

theorem minv_step (n : Nat) (oracle : Nat → Except Unit ℚ) {k : Nat}
    {s s' : MState k} (hstep : MStep n oracle s s') (hinv : MInv n oracle s) :
    MInv n oracle s' := by
  cases hstep with
  | claim w hw hlt =>
    refine ⟨hinv.len_eq, hlt, ?_, ?_, ?_, ?_⟩
    · intro w' c hw'
      dsimp only at hw' ⊢
      by_cases hww : w' = w
      · subst hww
        rw [Function.update_same] at hw'
        cases hw'
        omega
      · rw [Function.update_noteq hww] at hw'
        have := hinv.waiting_lt w' c hw'
        omega
    · intro w1 w2 c h1 h2
      dsimp only at h1 h2
      by_cases h1w : w1 = w
      · subst h1w
        rw [Function.update_same] at h1
        cases h1
        by_cases h2w : w2 = w1
        · exact h2w.symm
        · rw [Function.update_noteq h2w] at h2
          exact absurd (hinv.waiting_lt w2 _ h2) (lt_irrefl _)
      · rw [Function.update_noteq h1w] at h1
        by_cases h2w : w2 = w
        · subst h2w
          rw [Function.update_same] at h2
          cases h2
          exact absurd (hinv.waiting_lt w1 _ h1) (lt_irrefl _)
        · rw [Function.update_noteq h2w] at h2
          exact hinv.waiting_inj w1 w2 c h1 h2
    · intro i hi hnw
      dsimp only at hi hnw ⊢
      have hiw : i ≠ s.nextIndex := by
        intro hc
        subst hc
        exact hnw w (by rw [Function.update_same])
      refine hinv.filled i (by omega) ?_
      intro w' hw'
      by_cases hww : w' = w
      · subst hww
        rw [hw] at hw'
        exact WStatus.noConfusion hw'
      · exact hnw w' (by rw [Function.update_noteq hww]; exact hw')
    · intro w' hw'
      dsimp only at hw' ⊢
      by_cases hww : w' = w
      · subst hww
        rw [Function.update_same] at hw'
        exact WStatus.noConfusion hw'
      · rw [Function.update_noteq hww] at hw'
        have := hinv.done_next w' hw'
        omega
  | finish w hw hge =>
    refine ⟨hinv.len_eq, hinv.next_le, ?_, ?_, ?_, ?_⟩
    · intro w' c hw'
      dsimp only at hw' ⊢
      by_cases hww : w' = w
      · subst hww
        rw [Function.update_same] at hw'
        exact WStatus.noConfusion hw'
      · rw [Function.update_noteq hww] at hw'
        exact hinv.waiting_lt w' c hw'
    · intro w1 w2 c h1 h2
      dsimp only at h1 h2
      by_cases h1w : w1 = w
      · subst h1w
        rw [Function.update_same] at h1
        exact WStatus.noConfusion h1
      · rw [Function.update_noteq h1w] at h1
        by_cases h2w : w2 = w
        · subst h2w
          rw [Function.update_same] at h2
          exact WStatus.noConfusion h2
        · rw [Function.update_noteq h2w] at h2
          exact hinv.waiting_inj w1 w2 c h1 h2
    · intro i hi hnw
      dsimp only at hi hnw ⊢
      refine hinv.filled i hi ?_
      intro w' hw'
      by_cases hww : w' = w
      · subst hww
        rw [hw] at hw'
        exact WStatus.noConfusion hw'
      · exact hnw w' (by rw [Function.update_noteq hww]; exact hw')
    · intro w' hw'
      dsimp only at hw' ⊢
      by_cases hww : w' = w
      · exact hge
      · rw [Function.update_noteq hww] at hw'
        exact hinv.done_next w' hw'
  | resume w c hw =>
    have hc : c < s.nextIndex := hinv.waiting_lt w c hw
    refine ⟨?_, hinv.next_le, ?_, ?_, ?_, ?_⟩
    · dsimp only
      rw [List.length_set]
      exact hinv.len_eq
    · intro w' c' hw'
      dsimp only at hw' ⊢
      by_cases hww : w' = w
      · subst hww
        rw [Function.update_same] at hw'
        exact WStatus.noConfusion hw'
      · rw [Function.update_noteq hww] at hw'
        exact hinv.waiting_lt w' c' hw'
    · intro w1 w2 c' h1 h2
      dsimp only at h1 h2
      by_cases h1w : w1 = w
      · subst h1w
        rw [Function.update_same] at h1
        exact WStatus.noConfusion h1
      · rw [Function.update_noteq h1w] at h1
        by_cases h2w : w2 = w
        · subst h2w
          rw [Function.update_same] at h2
          exact WStatus.noConfusion h2
        · rw [Function.update_noteq h2w] at h2
          exact hinv.waiting_inj w1 w2 c' h1 h2
    · intro i hi hnw
      dsimp only at hi hnw ⊢
      by_cases hic : i = c
      · subst hic
        exact list_get?_set_self s.results i _
          (by rw [hinv.len_eq]; have := hinv.next_le; omega)
      · rw [list_get?_set_ne s.results c i _ fun hcc => hic hcc.symm]
        refine hinv.filled i hi ?_
        intro w' hw'
        by_cases hww : w' = w
        · subst hww
          rw [hw] at hw'
          cases hw'
          exact hic rfl
        · exact hnw w' (by rw [Function.update_noteq hww]; exact hw')
    · intro w' hw'
      dsimp only at hw' ⊢
      by_cases hww : w' = w
      · subst hww
        rw [Function.update_same] at hw'
        exact WStatus.noConfusion hw'
      · rw [Function.update_noteq hww] at hw'
        exact hinv.done_next w' hw'

theorem minv_reach (n : Nat) (oracle : Nat → Except Unit ℚ) {k : Nat}
    {s : MState k} (h : Relation.ReflTransGen (MStep n oracle) (mInit n k) s) :
    MInv n oracle s := by
  induction h with
  | refl => exact minv_init n k oracle
  | tail _ hstep ih => exact minv_step n oracle hstep ih

/-- Counterexample to claim C4 as stated ("for every item list, limit, and
task"): with `limit = 0` and one item, `Math.min(0, 1) = 0` workers are
spawned, `Promise.all([])` resolves at once — the initial state is already
terminal — and the returned array is `[undefined]`: its position does not
hold the task's outcome (`.ok 7` would demand `[some 7]`), so the result
positions do not match the per-item results. -/
theorem mapWithConcurrency_zero_limit_counterexample :
    MTerminal (mInit 1 (min 0 1)) ∧
    Relation.ReflTransGen (MStep 1 (fun _ => Except.ok (7 : ℚ)))
      (mInit 1 (min 0 1)) (mInit 1 (min 0 1)) ∧
    (mInit 1 (min 0 1)).results = [none] ∧
    [none] ≠ (List.range 1).map
      (fun i => some (settleTask (fun _ => Except.ok (7 : ℚ)) i)) := by
  refine ⟨fun w => w.elim0, Relation.ReflTransGen.refl, rfl, ?_⟩
  intro h
  have : (none : Option ℚ) = some 7 := by
    simpa [settleTask, List.range_succ] using congrArg (fun l => l.get? 0) h
  exact Option.noConfusion this

/-- Claim C4 (amended to a positive worker limit): for every item count
`n`, every `limit ≥ 1` and every task oracle, `mapWithConcurrency` spawns
`min(limit, n)` workers, and EVERY schedule of those workers that runs to
completion ends with the results array equal, position by position in
input order, to the settled per-item outcomes — the task's value, or the
neutral `0` for an item whose task threw — regardless of completion
order; no item's failure disturbs any other slot, and the array length
equals the item count. -/
theorem mapWithConcurrency_order_and_fault (n limit : Nat)
    (oracle : Nat → Except Unit ℚ) (hlim : 1 ≤ limit)
    (s : MState (min limit n))
    (hreach : Relation.ReflTransGen (MStep n oracle)
      (mInit n (min limit n)) s)
    (hterm : MTerminal s) :
    s.results = (List.range n).map (fun i => some (settleTask oracle i)) ∧
    s.results.length = n := by
  have hinv := minv_reach n oracle hreach
  have hnext : s.nextIndex = n := by
    rcases Nat.eq_zero_or_pos n with hn | hn
    · have := hinv.next_le
      omega
    · have hk : 0 < min limit n := by omega
      have hd := hterm ⟨0, hk⟩
      have h1 := hinv.done_next ⟨0, hk⟩ hd
      have h2 := hinv.next_le
      omega
  constructor
  · refine List.ext_get? ?_
    intro i
    by_cases hi : i < n
    · have h1 := hinv.filled i (by omega) (fun w hw => by
        have hdw := hterm w
        rw [hdw] at hw
        exact WStatus.noConfusion hw)
      rw [h1, List.get?_eq_getElem?, List.getElem?_map, List.getElem?_range hi]
      rfl
    · have h1 : s.results.get? i = none :=
        List.get?_eq_none.mpr (by rw [hinv.len_eq]; omega)
      have h2 : ((List.range n).map
          (fun i => some (settleTask oracle i))).get? i = none :=
        List.get?_eq_none.mpr (by simp; omega)
      rw [h1, h2]
  · exact hinv.len_eq

/-- The final state of a concrete one-item, limit-2 run whose single task
throws: claim, resume (writing the neutral 0), finish. -/
def mapDemoOracle : Nat → Except Unit ℚ := fun _ => Except.error ()

def mapDemoFinal : MState (min 2 1) :=
  ⟨1, (mInit 1 (min 2 1)).results.set 0 (some (settleTask mapDemoOracle 0)),
    Function.update (Function.update (Function.update
      (mInit 1 (min 2 1)).workers ⟨0, by decide⟩ (.waiting 0))
      ⟨0, by decide⟩ .ready) ⟨0, by decide⟩ .done⟩

theorem mapWithConcurrency_order_and_fault_witness :
    mapDemoFinal.results =
      (List.range 1).map (fun i => some (settleTask mapDemoOracle i)) ∧
    mapDemoFinal.results = [some 0] := by
  have hstep1 : MStep 1 mapDemoOracle (mInit 1 (min 2 1))
      ⟨1, (mInit 1 (min 2 1)).results,
        Function.update (mInit 1 (min 2 1)).workers ⟨0, by decide⟩
          (.waiting 0)⟩ :=
    MStep.claim (mInit 1 (min 2 1)) ⟨0, by decide⟩ rfl (by decide)
  have hstep2 : MStep 1 mapDemoOracle
      ⟨1, (mInit 1 (min 2 1)).results,
        Function.update (mInit 1 (min 2 1)).workers ⟨0, by decide⟩
          (.waiting 0)⟩
      ⟨1, (mInit 1 (min 2 1)).results.set 0 (some (settleTask mapDemoOracle 0)),
        Function.update (Function.update (mInit 1 (min 2 1)).workers
          ⟨0, by decide⟩ (.waiting 0)) ⟨0, by decide⟩ .ready⟩ :=
    MStep.resume _ ⟨0, by decide⟩ 0 (by simp [Function.update])
  have hstep3 : MStep 1 mapDemoOracle
      ⟨1, (mInit 1 (min 2 1)).results.set 0 (some (settleTask mapDemoOracle 0)),
        Function.update (Function.update (mInit 1 (min 2 1)).workers
          ⟨0, by decide⟩ (.waiting 0)) ⟨0, by decide⟩ .ready⟩
      mapDemoFinal :=
    MStep.finish _ ⟨0, by decide⟩ (by simp [Function.update]) (by decide)
  have hreach : Relation.ReflTransGen (MStep 1 mapDemoOracle)
      (mInit 1 (min 2 1)) mapDemoFinal :=
    Relation.ReflTransGen.head hstep1
      (Relation.ReflTransGen.head hstep2
        (Relation.ReflTransGen.single hstep3))
  have hterm : MTerminal mapDemoFinal := by
    intro w
    have hw : w = ⟨0, by decide⟩ := by
      apply Fin.ext
      omega
    rw [hw]
    simp [mapDemoFinal, Function.update]
  have h := mapWithConcurrency_order_and_fault 1 2 mapDemoOracle
    (by decide) mapDemoFinal hreach hterm
  exact ⟨h.1, by rw [h.1]; rfl⟩

/-! ## Relay request building and response unwrapping
(live-data.js lines 29-72)

`JSON.parse` and `encodeURIComponent`/decoding by the relay are host
primitives: the definitions below take them as parameters, and a concrete
executable JSON serializer/parser pair is provided further down so the
round-trip theorem has closed instances. -/

/-- Parsed JSON values (numerics restricted to integers; the numeric
payloads themselves are modelled exactly elsewhere). -/
inductive Json where
  | jnull
  | jbool (b : Bool)
  | jnum (n : Int)
  | jstr (s : String)
  | jarr (elems : List Json)
  | jobj (fields : List (String × Json))

/-- `String.length` / `slice` as used by the relay model: character
based, adequate for the ASCII relay bases. -/
def strLen (s : String) : Nat := s.toList.length

def strDrop (s : String) (n : Nat) : String := String.mk (s.toList.drop n)

/-- `needle` is a leading part of `hay`. -/
def charsHasPre : List Char → List Char → Bool
  | [], _ => true
  | _ :: _, [] => false
  | n :: ns, h :: hs => n = h && charsHasPre ns hs

/-- JS `hay.includes(needle)`. -/
def charsIncludes (needle : List Char) : List Char → Bool
  | [] => needle.isEmpty
  | h :: t => charsHasPre needle (h :: t) || charsIncludes needle t

def strIncludes (hay needle : String) : Bool :=
  charsIncludes needle.toList hay.toList

/-- `buildProxyUrl(proxy, targetUrl)` (lines 29-43), with the host
`encodeURIComponent` as a parameter. -/
def buildProxyUrl (encode : String → String) (proxy : ProxyDesc)
    (targetUrl : String) : String :=
  if proxy.ptype = .jina then proxy.base ++ targetUrl
  else if proxy.ptype = .raw ∨ proxy.ptype = .alloriginsGet
      ∨ strIncludes proxy.base "?" = true
      ∨ strIncludes proxy.base "url=" = true then
    proxy.base ++ encode targetUrl
  else proxy.base ++ targetUrl

/-- `text.indexOf(c)` (first occurrence), `none` for -1. -/
def idxOfChar : List Char → Char → Option Nat
  | [], _ => none
  | x :: rest, c =>
    if x = c then some 0 else (idxOfChar rest c).map (fun k => k + 1)

/-- `text.lastIndexOf(c)`, `none` for -1. -/
def lastIdxOfChar (cs : List Char) (c : Char) : Option Nat :=
  (idxOfChar cs.reverse c).map (fun k => cs.length - 1 - k)

/-- `extractJsonFromText(text)` (lines 45-54): reject empty text, find the
first brace and the last closing brace, reject a malformed span, and parse
the slice between them. -/
def extractJsonFromText (parse : String → Option Json) (text : String) :
    Option Json :=
  if text = "" then none
  else
    match idxOfChar text.toList '\x7b', lastIdxOfChar text.toList '\x7d' with
    | some fb, some lb =>
      if lb ≤ fb then none
      else parse (String.mk ((text.toList.drop fb).take (lb + 1 - fb)))
    | some _, none => none
    | none, _ => none

def lookupJ : List (String × Json) → String → Option Json
  | [], _ => none
  | (k, v) :: rest, key => if k = key then some v else lookupJ rest key

/-- `wrapper.contents` when it is a string (`typeof ... === 'string'`). -/
def jsonGetStrField (j : Json) (key : String) : Option String :=
  match j with
  | .jobj fields =>
    match lookupJ fields key with
    | some (.jstr s) => some s
    | _ => none
  | _ => none

/-- `readJsonResponse(proxy, response)` (lines 56-72) on the response body
text: the allorigins-get envelope is JSON-parsed and its string `contents`
field brace-extracted; every other relay kind tries a direct JSON parse
and falls back to brace extraction of the raw text. -/
def readJsonResponse (parse : String → Option Json) (proxy : ProxyDesc)
    (body : String) : Option Json :=
  if proxy.ptype = .alloriginsGet then
    match parse body with
    | none => none
    | some wrapper =>
      match jsonGetStrField wrapper "contents" with
      | none => none
      | some contents => extractJsonFromText parse contents
  else
    match parse body with
    | some v => some v
    | none => extractJsonFromText parse body

/-! ### The relay service itself (external world)

A relay recovers the target URL from the request URL it receives —
stripping its base prefix and decoding when the target was encoded —
fetches the upstream body, and delivers it: verbatim for pass-through
relays, wrapped in a `{"contents": …}` JSON envelope for allorigins-get. -/

def extractTarget (decode : String → String) (proxy : ProxyDesc)
    (requestUrl : String) : String :=
  let rest := strDrop requestUrl (strLen proxy.base)
  match proxy.ptype with
  | .jina => rest
  | .path => rest
  | .raw => decode rest
  | .alloriginsGet => decode rest

/-! ### A concrete executable JSON serializer and parser -/

def escapeChar (c : Char) : String :=
  if c = '"' then "\\\"" else if c = '\\' then "\\\\" else String.singleton c

def escapeString (s : String) : String :=
  String.join (s.toList.map escapeChar)

def quoteStr (s : String) : String := "\"" ++ escapeString s ++ "\""

mutual

def jsonStringify : Json → String
  | .jnull => "null"
  | .jbool true => "true"
  | .jbool false => "false"
  | .jnum n => toString n
  | .jstr s => quoteStr s
  | .jarr es => "[" ++ stringifyElems es ++ "]"
  | .jobj fs => "\x7b" ++ stringifyFields fs ++ "\x7d"

def stringifyElems : List Json → String
  | [] => ""
  | [x] => jsonStringify x
  | x :: y :: rest => jsonStringify x ++ "," ++ stringifyElems (y :: rest)

def stringifyFields : List (String × Json) → String
  | [] => ""
  | [(k, v)] => quoteStr k ++ ":" ++ jsonStringify v
  | (k, v) :: y :: rest =>
    quoteStr k ++ ":" ++ jsonStringify v ++ "," ++ stringifyFields (y :: rest)

end

/-- The JSON envelope `{"contents": body}` served by allorigins-get. -/
def alloriginsEnvelope (body : String) : String :=
  jsonStringify (.jobj [("contents", .jstr body)])

/-- Body text delivered by a relay serving an upstream body. -/
def wrapBody (proxy : ProxyDesc) (body : String) : String :=
  if proxy.ptype = .alloriginsGet then alloriginsEnvelope body else body

def isWsChar (c : Char) : Bool :=
  c = ' ' || c = '\n' || c = '\t' || c = '\r'

def skipWs (cs : List Char) : List Char := cs.dropWhile isWsChar

def expectChars : List Char → List Char → Option (List Char)
  | [], input => some input
  | _ :: _, [] => none
  | p :: ps, c :: cs => if c = p then expectChars ps cs else none

def parseStrAux : Nat → List Char → Option (List Char × List Char)
  | 0, _ => none
  | _ + 1, [] => none
  | f + 1, c :: rest =>
    if c = '"' then some ([], rest)
    else if c = '\\' then
      match rest with
      | [] => none
      | e :: rest2 =>
        let d : Option Char :=
          if e = '"' then some '"'
          else if e = '\\' then some '\\'
          else if e = '/' then some '/'
          else if e = 'n' then some '\n'
          else if e = 't' then some '\t'
          else if e = 'r' then some '\r'
          else none
        match d with
        | none => none
        | some dc =>
          match parseStrAux f rest2 with
          | some (cs, r) => some (dc :: cs, r)
          | none => none
    else
      match parseStrAux f rest with
      | some (cs, r) => some (c :: cs, r)
      | none => none

def parseIntNum (cs : List Char) : Option (Int × List Char) :=
  match cs with
  | '-' :: rest =>
    let p := takeDigits rest
    if p.1 = [] then none else some (-(digitsToNat p.1 : Int), p.2)
  | _ =>
    let p := takeDigits cs
    if p.1 = [] then none else some ((digitsToNat p.1 : Int), p.2)

mutual

def parseJsonAux : Nat → List Char → Option (Json × List Char)
  | 0, _ => none
  | f + 1, cs0 =>
    match skipWs cs0 with
    | [] => none
    | c :: rest =>
      if c = 'n' then (expectChars ['u', 'l', 'l'] rest).map
        (fun r => (Json.jnull, r))
      else if c = 't' then (expectChars ['r', 'u', 'e'] rest).map
        (fun r => (Json.jbool true, r))
      else if c = 'f' then (expectChars ['a', 'l', 's', 'e'] rest).map
        (fun r => (Json.jbool false, r))
      else if c = '"' then
        match parseStrAux (rest.length + 1) rest with
        | some (cs, r) => some (Json.jstr (String.mk cs), r)
        | none => none
      else if c = '[' then
        match skipWs rest with
        | ']' :: r => some (Json.jarr [], r)
        | other =>
          match parseElems f other with
          | some (es, r) => some (Json.jarr es, r)
          | none => none
      else if c = '\x7b' then
        match skipWs rest with
        | '\x7d' :: r => some (Json.jobj [], r)
        | other =>
          match parseFields f other with
          | some (fs, r) => some (Json.jobj fs, r)
          | none => none
      else
        match parseIntNum (c :: rest) with
        | some (n, r) => some (Json.jnum n, r)
        | none => none

def parseElems : Nat → List Char → Option (List Json × List Char)
  | 0, _ => none
  | f + 1, cs =>
    match parseJsonAux f cs with
    | none => none
    | some (v, r) =>
      match skipWs r with
      | ',' :: r2 =>
        match parseElems f r2 with
        | some (es, r3) => some (v :: es, r3)
        | none => none
      | ']' :: r2 => some ([v], r2)
      | _ => none

def parseFields : Nat → List Char → Option (List (String × Json) × List Char)
  | 0, _ => none
  | f + 1, cs =>
    match skipWs cs with
    | '"' :: r =>
      match parseStrAux (r.length + 1) r with
      | none => none
      | some (kcs, r1) =>
        match skipWs r1 with
        | ':' :: r2 =>
          match parseJsonAux f r2 with
          | none => none
          | some (v, r3) =>
            match skipWs r3 with
            | ',' :: r4 =>
              match parseFields f r4 with
              | some (fs, r5) => some ((String.mk kcs, v) :: fs, r5)
              | none => none
            | '\x7d' :: r4 => some ([(String.mk kcs, v)], r4)
            | _ => none
        | _ => none
    | _ => none

end

/-- A concrete model of `JSON.parse`: parse one value and require only
trailing whitespace. -/
def jsonParse (s : String) : Option Json :=
  match parseJsonAux (s.toList.length + 1) s.toList with
  | some (v, rest) => if skipWs rest = [] then some v else none
  | none => none

/-! ### Claim C3: request building followed by unwrapping round-trips -/

theorem strDrop_append (a b : String) : strDrop (a ++ b) (strLen a) = b := by
  show String.mk (((a ++ b).toList).drop (strLen a)) = b
  rw [show (a ++ b).toList = a.toList ++ b.toList from String.data_append a b]
  rw [show strLen a = a.toList.length from rfl, List.drop_left]
  rfl

theorem extractJsonFromText_delimited (parse : String → Option Json)
    (s : String) (hhead : s.toList.head? = some '\x7b')
    (hlast : s.toList.getLast? = some '\x7d') :
    extractJsonFromText parse s = parse s := by
  obtain ⟨mid, hcs⟩ : ∃ mid, s.toList = '\x7b' :: mid := by
    cases h : s.toList with
    | nil => rw [h] at hhead; exact Option.noConfusion hhead
    | cons c t =>
      rw [h] at hhead
      have hc := Option.some_inj.mp hhead
      exact ⟨t, by rw [hc]⟩
  have hne : ¬ s = "" := by
    intro h
    rw [h] at hcs
    exact List.noConfusion hcs
  have hidx : idxOfChar s.toList '\x7b' = some 0 := by
    rw [hcs]
    simp [idxOfChar]
  have hmid : mid ≠ [] := by
    intro h
    rw [h] at hcs
    rw [hcs] at hlast
    have h2 : ([('\x7b' : Char)].getLast?) = some '\x7b' := by decide
    rw [h2] at hlast
    have := Option.some_inj.mp hlast
    exact absurd this (by decide)
  have hrev : s.toList.reverse.head? = some '\x7d' := by
    rw [List.head?_reverse]
    exact hlast
  obtain ⟨t2, hrev2⟩ : ∃ t2, s.toList.reverse = '\x7d' :: t2 := by
    cases h : s.toList.reverse with
    | nil => rw [h] at hrev; exact Option.noConfusion hrev
    | cons c t =>
      rw [h] at hrev
      have hc := Option.some_inj.mp hrev
      exact ⟨t, by rw [hc]⟩
  have hlidx : lastIdxOfChar s.toList '\x7d' = some (s.toList.length - 1) := by
    rw [lastIdxOfChar, hrev2]
    simp [idxOfChar]
  have hlen2 : 2 ≤ s.toList.length := by
    rw [hcs]
    have := List.length_pos.mpr hmid
    simp only [List.length_cons]
    omega
  unfold extractJsonFromText
  rw [if_neg hne, hidx, hlidx]
  dsimp only
  rw [if_neg (show ¬ s.toList.length - 1 ≤ 0 by omega)]
  have harg : (s.toList.drop 0).take (s.toList.length - 1 + 1 - 0) = s.toList := by
    rw [List.drop_zero, Nat.sub_zero, Nat.sub_add_cancel (by omega)]
    exact List.take_length s.toList
  rw [harg]
  rfl

theorem readJsonResponse_direct (parse : String → Option Json)
    (proxy : ProxyDesc) (body : String) (j : Json)
    (hne : ¬ proxy.ptype = .alloriginsGet) (hb : parse body = some j) :
    readJsonResponse parse proxy body = some j := by
  unfold readJsonResponse
  rw [if_neg hne, hb]

theorem readJsonResponse_allorigins (parse : String → Option Json)
    (nm base body : String) (j : Json)
    (hw : parse (alloriginsEnvelope body) =
      some (Json.jobj [("contents", Json.jstr body)]))
    (hhead : body.toList.head? = some '\x7b')
    (hlast : body.toList.getLast? = some '\x7d')
    (hb : parse body = some j) :
    readJsonResponse parse ⟨nm, .alloriginsGet, base⟩
      (alloriginsEnvelope body) = some j := by
  unfold readJsonResponse
  rw [if_pos rfl, hw]
  dsimp only
  have hg : jsonGetStrField (Json.jobj [("contents", Json.jstr body)])
      "contents" = some body := by
    simp [jsonGetStrField, lookupJ]
  rw [hg]
  dsimp only
  rw [extractJsonFromText_delimited parse body hhead hlast]
  exact hb

theorem extractTarget_encoded (decode : String → String) (nm base t : String)
    (pt : ProxyType) (hpt : pt = .raw ∨ pt = .alloriginsGet)
    (enc : String) (hdec : decode enc = t) :
    extractTarget decode ⟨nm, pt, base⟩ (base ++ enc) = t := by
  rcases hpt with rfl | rfl <;>
    simp only [extractTarget, strDrop_append] <;> exact hdec

theorem extractTarget_plain (decode : String → String) (nm base t : String)
    (pt : ProxyType) (hpt : pt = .jina ∨ pt = .path) :
    extractTarget decode ⟨nm, pt, base⟩ (base ++ t) = t := by
  rcases hpt with rfl | rfl <;>
    simp only [extractTarget, strDrop_append]

/-- Claim C3: for every relay kind in `CORS_PROXIES` and every well-formed
upstream JSON object body (a body the host `JSON.parse` reads back as the
object `j`, brace-delimited as every serialized object is), building the
request URL with `buildProxyUrl`, letting the relay recover the target,
fetch the upstream body and deliver it per its convention, and unwrapping
with `readJsonResponse` recovers exactly `j`.  The host primitives are
hypotheses: `decode` undoes `encode` on the target URL, `parse` reads the
body back as `j`, and `parse` reads the allorigins envelope back as the
wrapper object. -/
theorem buildUrl_unwrap_roundTrip (parse : String → Option Json)
    (encode decode : String → String) (upstream : String → String)
    (targetUrl : String) (j : Json)
    (hdec : decode (encode targetUrl) = targetUrl)
    (hparse : parse (upstream targetUrl) = some j)
    (hhead : (upstream targetUrl).toList.head? = some '\x7b')
    (hlast : (upstream targetUrl).toList.getLast? = some '\x7d')
    (henv : parse (alloriginsEnvelope (upstream targetUrl)) =
      some (Json.jobj [("contents", Json.jstr (upstream targetUrl))])) :
    ∀ proxy ∈ CORS_PROXIES,
      readJsonResponse parse proxy
        (wrapBody proxy
          (upstream (extractTarget decode proxy
            (buildProxyUrl encode proxy targetUrl)))) = some j := by
  intro proxy hp
  simp only [CORS_PROXIES, List.mem_cons, List.not_mem_nil, or_false] at hp
  rcases hp with rfl | rfl | rfl | rfl | rfl
  · -- allorigins-raw: query-encoded pass-through
    rw [show buildProxyUrl encode
        ⟨"allorigins-raw", .raw, "https://api.allorigins.win/raw?url="⟩
        targetUrl =
        "https://api.allorigins.win/raw?url=" ++ encode targetUrl from rfl]
    rw [extractTarget_encoded decode _ _ _ _ (Or.inl rfl) _ hdec]
    exact readJsonResponse_direct parse _ _ j (by decide) hparse
  · -- jina: path-suffix pass-through
    rw [show buildProxyUrl encode ⟨"jina", .jina, "https://r.jina.ai/"⟩
        targetUrl = "https://r.jina.ai/" ++ targetUrl from rfl]
    rw [extractTarget_plain decode _ _ _ _ (Or.inl rfl)]
    exact readJsonResponse_direct parse _ _ j (by decide) hparse
  · -- allorigins-get: JSON envelope
    rw [show buildProxyUrl encode
        ⟨"allorigins-get", .alloriginsGet, "https://api.allorigins.win/get?url="⟩
        targetUrl =
        "https://api.allorigins.win/get?url=" ++ encode targetUrl from rfl]
    rw [extractTarget_encoded decode _ _ _ _ (Or.inr rfl) _ hdec]
    rw [show wrapBody
        ⟨"allorigins-get", .alloriginsGet, "https://api.allorigins.win/get?url="⟩
        (upstream targetUrl) = alloriginsEnvelope (upstream targetUrl) from rfl]
    exact readJsonResponse_allorigins parse _ _ _ j henv hhead hlast hparse
  · -- corsproxy: query-encoded pass-through
    rw [show buildProxyUrl encode
        ⟨"corsproxy", .raw, "https://corsproxy.io/?"⟩ targetUrl =
        "https://corsproxy.io/?" ++ encode targetUrl from rfl]
    rw [extractTarget_encoded decode _ _ _ _ (Or.inl rfl) _ hdec]
    exact readJsonResponse_direct parse _ _ j (by decide) hparse
  · -- cors-anywhere: raw path-style pass-through
    rw [show buildProxyUrl encode
        ⟨"cors-anywhere", .path, "https://cors-anywhere.herokuapp.com/"⟩
        targetUrl =
        "https://cors-anywhere.herokuapp.com/" ++ targetUrl from rfl]
    rw [extractTarget_plain decode _ _ _ _ (Or.inr rfl)]
    exact readJsonResponse_direct parse _ _ j (by decide) hparse

/-- Concrete witness data: upstream serves the serialized object, the
relay encoding is the identity, `JSON.parse` is the concrete parser. -/
def demoJson : Json := .jobj [("a", .jnum 1)]

def demoUp : String → String := fun _ => jsonStringify demoJson

theorem buildUrl_unwrap_roundTrip_witness :
    readJsonResponse jsonParse
      ⟨"allorigins-get", .alloriginsGet, "https://api.allorigins.win/get?url="⟩
      (wrapBody
        ⟨"allorigins-get", .alloriginsGet, "https://api.allorigins.win/get?url="⟩
        (demoUp (extractTarget id
          ⟨"allorigins-get", .alloriginsGet, "https://api.allorigins.win/get?url="⟩
          (buildProxyUrl id
            ⟨"allorigins-get", .alloriginsGet, "https://api.allorigins.win/get?url="⟩
            "https://example.com/quote")))) = some demoJson := by
  refine buildUrl_unwrap_roundTrip jsonParse id id demoUp
    "https://example.com/quote" demoJson rfl ?_ ?_ ?_ ?_
    ⟨"allorigins-get", .alloriginsGet, "https://api.allorigins.win/get?url="⟩
    (List.Mem.tail _ (List.Mem.tail _ (List.Mem.head _)))
  · rfl
  · decide
  · decide
  · rfl

end RbcLive
